import Mathlib

/-!
Verification of the `LeaseManager` flow-control / lease manager
(`src/unnamed/part_000`, class `LeaseManager`).

The embedding translates the TypeScript class into pure Lean functions:
the mutable fields (`bytes`, `_isLeasing`, `_messages`, `_pending`,
`_options`) become a state record `LMState`; each method becomes a
function from state to state, additionally returning the list of
notifications it emits (`full` / `free` capacity events, message
dispenses, and `modAck` renewal calls).  Each emitted notification is
tagged with a Boolean recording whether the source defers it through
`process.nextTick` (`true`) or emits it synchronously (`false`).

The JS `Set<Message>` preserves insertion order and deduplicates, so it
is modelled as a `List Message` to which `add` appends only when the
element is absent; `delete` is `List.erase`.  JS numbers standing for
byte counts and caps are modelled as `Int` (so that under-counting could
in principle go negative, as in the source); timestamps are `Int`
milliseconds; the fractional arithmetic of the sweep interval uses `ℚ`.
-/

/-- A received message as seen by the lease manager: an identity, its
byte size (`message.length` in the source) and its arrival timestamp in
milliseconds (`message.received`). -/
structure Message where
  ident : Nat
  length : Nat
  received : Int
deriving DecidableEq, Repr

/-- The subscriber collaborator, narrowed to the fields the manager
reads: `isOpen` (gates `_dispense`), `ackDeadline` (seconds),
`modAckLatency` (ms), `maxExtensionTime.totalOf('minute')`, and the
exactly-once flag. -/
structure Subscriber where
  isOpen : Bool
  ackDeadline : ℚ
  modAckLatency : ℚ
  maxExtensionMinutes : ℚ
  isExactlyOnceDelivery : Bool
deriving DecidableEq, Repr

/-- Resolved flow-control options (after `setOptions` merged defaults). -/
structure FlowControlOptions where
  allowExcessMessages : Bool
  maxBytes : Int
  maxMessages : Int
deriving DecidableEq, Repr

/-- The `FlowControlOptions` argument object: each field optional, `none`
meaning the property is absent from the supplied object. -/
structure FlowControlOptionsArg where
  allowExcessMessages : Option Bool := none
  maxBytes : Option Int := none
  maxMessages : Option Int := none
deriving DecidableEq, Repr

/-- Modelled from the spec: `defaultOptions.subscription.maxOutstandingBytes`
lives in `default-options.ts`, which is not part of the sources; the spec
gives the default byte cap as 100 MiB. -/
def defaultMaxBytes : Int := 104857600

/-- Modelled from the spec: `defaultOptions.subscription.maxOutstandingMessages`
lives in `default-options.ts`, which is not part of the sources; the spec
gives the default message cap as 1000. -/
def defaultMaxMessages : Int := 1000

/-- A notification emitted by the manager: the capacity events
`full` / `free`, a dispense of a message to the application, or a
deadline-renewal (`modAck` / `modAckWithResponse`) call. -/
inductive Notice
  | full
  | free
  | dispense (m : Message)
  | modAck (m : Message)
deriving DecidableEq, Repr

/-- An emitted notification together with a flag: `true` when the source
defers the emission through `process.nextTick`, `false` when it emits
synchronously inside the triggering call. -/
abbrev Emitted := Notice × Bool

/-- The mutable state of a `LeaseManager`: `bytes`, `_isLeasing`,
`_messages` (insertion-ordered, duplicate-free by construction),
`_pending`, `_options`. -/
structure LMState where
  bytes : Int
  isLeasing : Bool
  messages : List Message
  pending : List Message
  options : FlowControlOptions
deriving DecidableEq, Repr

namespace LeaseManager

/-- `setOptions`: `Object.assign(defaults, options)` — a fresh defaults
object overridden by exactly the fields present in the argument. -/
def mergeOptions (o : FlowControlOptionsArg) : FlowControlOptions :=
  { allowExcessMessages := o.allowExcessMessages.getD true
    maxBytes := o.maxBytes.getD defaultMaxBytes
    maxMessages := o.maxMessages.getD defaultMaxMessages }

/-- `setOptions` as a state transformer: replaces `_options` wholesale. -/
def setOptions (s : LMState) (o : FlowControlOptionsArg) : LMState :=
  { s with options := mergeOptions o }

/-- The constructor: zeroed inventory, then `setOptions(options)`. -/
def initState (o : FlowControlOptionsArg) : LMState :=
  { bytes := 0
    isLeasing := false
    messages := []
    pending := []
    options := mergeOptions o }

/-- The `size` getter: `this._messages.size`. -/
def size (s : LMState) : Nat := s.messages.length

/-- The `pending` getter: `this._pending.length`. -/
def pendingCount (s : LMState) : Nat := s.pending.length

/-- `isFull()`: `this.size >= maxMessages || this.bytes >= maxBytes`. -/
def isFull (s : LMState) : Bool :=
  decide ((s.messages.length : Int) ≥ s.options.maxMessages) ||
    decide (s.bytes ≥ s.options.maxBytes)

/-- `_dispense(message)`: when the subscriber is open, the message is
emitted on the next tick; when closed, nothing happens. -/
def dispense (sub : Subscriber) (m : Message) : List Emitted :=
  if sub.isOpen then [(.dispense m, true)] else []

/-- The state update shared by the tail of `remove` and `clear` via
`_cancelExtension`: in `remove`, leasing stops when the inventory
empties. -/
def maybeCancel (s : LMState) : LMState :=
  if s.messages.length = 0 ∧ s.isLeasing = true then
    { s with isLeasing := false }
  else s

/-- The state right after `this._messages.delete(message)` and
`this.bytes -= message.length` inside `remove`. -/
def afterDelete (s : LMState) (m : Message) : LMState :=
  { s with messages := s.messages.erase m, bytes := s.bytes - (m.length : Int) }

/-- `this._messages.add(message)`: a JS `Set` appends the element in
insertion order only when it is absent. -/
def addMessages (s : LMState) (m : Message) : List Message :=
  if m ∈ s.messages then s.messages else s.messages ++ [m]

/-- The state after the unconditional prefix of `add`: insert into the
set, count the bytes, and (line 112-115) mark leasing as started. -/
def afterInsert (s : LMState) (m : Message) : LMState :=
  { s with
    messages := addMessages s m
    bytes := s.bytes + (m.length : Int)
    isLeasing := true }

/-- Lines 117-119 of the source: emit `full` synchronously when the
fullness Boolean flipped false → true across the insertion.  (`isFull`
reads only `messages`, `bytes` and `options`, which `afterInsert` fixes
identically in both branches of `add`.) -/
def fullEvent (s : LMState) (m : Message) : List Emitted :=
  if isFull s = false ∧ isFull (afterInsert s m) = true then [(.full, false)]
  else []

/-- `add(message)`: insert into the set, count the bytes, dispense
immediately when excess is allowed or the inventory was not already
full (else enqueue as pending), start leasing, and emit `full`
synchronously when the fullness Boolean flips false → true. -/
def add (sub : Subscriber) (s : LMState) (m : Message) : LMState × List Emitted :=
  if s.options.allowExcessMessages = true ∨ isFull s = false then
    (afterInsert s m, dispense sub m ++ fullEvent s m)
  else
    ({ afterInsert s m with pending := s.pending ++ [m] }, fullEvent s m)

/-- `remove(message)`: no-op when absent; otherwise delete and un-count,
then exactly one of: a deferred `free` on a full → not-full flip, a
removal of the message from the pending queue, or a FIFO pop-and-dispense
of the oldest pending message; finally stop leasing if empty. -/
def remove (sub : Subscriber) (s : LMState) (m : Message) : LMState × List Emitted :=
  if m ∈ s.messages then
    if isFull s = true ∧ isFull (afterDelete s m) = false then
      (maybeCancel (afterDelete s m), [(.free, true)])
    else if m ∈ s.pending then
      (maybeCancel { afterDelete s m with pending := s.pending.erase m }, [])
    else
      match s.pending with
      | [] => (maybeCancel (afterDelete s m), [])
      | p :: rest =>
        (maybeCancel { afterDelete s m with pending := rest }, dispense sub p)
  else (s, [])

/-- `clear()`: empty the pending queue and the set, zero the bytes,
emit a deferred `free` when the inventory was full, and cancel the
extension unconditionally.  (The removed messages the source returns are
exactly the pre-call `messages` list.) -/
def clear (s : LMState) : LMState × List Emitted :=
  ({ s with pending := [], messages := [], bytes := 0, isLeasing := false },
    if isFull s = true then [(.free, true)] else [])

/-- The source's per-message age test (lines 246-248): the lifespan in
minutes, `(Date.now() - message.received) / (60 * 1000)`, is strictly
below the subscriber's maximum extension time. -/
def isYoung (sub : Subscriber) (now : Int) (m : Message) : Prop :=
  ((now - m.received : Int) : ℚ) / (60 * 1000) < sub.maxExtensionMinutes

instance (sub : Subscriber) (now : Int) (m : Message) :
    Decidable (isYoung sub now m) := by
  unfold isYoung; infer_instance

/-- One step of the `_extendDeadlines` loop body for a single message:
renew (`modAck`, a synchronous call covering both the exactly-once
`modAckWithResponse` and the fire-and-forget `modAck` paths) when its
lifespan in minutes is below the subscriber's max extension, otherwise
`remove` it. -/
def sweepStep (sub : Subscriber) (now : Int) (acc : LMState × List Emitted)
    (m : Message) : LMState × List Emitted :=
  if isYoung sub now m then
    (acc.1, acc.2 ++ [(.modAck m, false)])
  else
    ((remove sub acc.1 m).1, acc.2 ++ (remove sub acc.1 m).2)

/-- `_extendDeadlines()`: iterate the held set in insertion order (the
only deletions during iteration are of the element currently visited, so
the live-set iteration of the source equals a fold over the snapshot). -/
def extendDeadlines (sub : Subscriber) (now : Int) (s : LMState) :
    LMState × List Emitted :=
  s.messages.foldl (sweepStep sub now) (s, [])

/-- `_getNextExtensionTimeoutMs()`:
`(ackDeadline * 1000 * 0.9 - modAckLatency) * jitter`, with the jitter a
`Math.random()` draw passed in explicitly. -/
def getNextExtensionTimeoutMs (sub : Subscriber) (jitter : ℚ) : ℚ :=
  (sub.ackDeadline * 1000 * (9 / 10) - sub.modAckLatency) * jitter

/-- The public operations a driver can invoke on the manager. -/
inductive Op
  | addOp (m : Message)
  | removeOp (m : Message)
  | clearOp
deriving DecidableEq, Repr

/-- Dispatch one operation. -/
def step (sub : Subscriber) (s : LMState) : Op → LMState × List Emitted
  | .addOp m => add sub s m
  | .removeOp m => remove sub s m
  | .clearOp => clear s

/-- Run a sequence of operations, concatenating the emissions. -/
def runOps (sub : Subscriber) (s : LMState) : List Op → LMState × List Emitted
  | [] => (s, [])
  | op :: ops =>
    let r := step sub s op
    let rs := runOps sub r.1 ops
    (rs.1, r.2 ++ rs.2)

end LeaseManager

open LeaseManager

/-! ### Test fixtures: concrete subscribers and messages -/

/-- An open subscriber whose timing fields are unused by the inventory
operations. -/
def sub0 : Subscriber :=
  { isOpen := true, ackDeadline := 0, modAckLatency := 0,
    maxExtensionMinutes := 0, isExactlyOnceDelivery := false }

/-- A subscriber whose renewal round-trip latency exceeds 90% of its ack
deadline (1 s deadline, 10 s observed latency). -/
def subSlow : Subscriber :=
  { isOpen := true, ackDeadline := 1, modAckLatency := 10000,
    maxExtensionMinutes := 0, isExactlyOnceDelivery := false }

/-- A subscriber with a 10 s ack deadline and 100 ms renewal latency. -/
def subW : Subscriber :=
  { isOpen := true, ackDeadline := 10, modAckLatency := 100,
    maxExtensionMinutes := 60, isExactlyOnceDelivery := false }

/-! ### Structural lemmas on the operations -/

theorem maybeCancel_messages (s : LMState) : (maybeCancel s).messages = s.messages := by
  unfold maybeCancel; split <;> rfl

theorem maybeCancel_bytes (s : LMState) : (maybeCancel s).bytes = s.bytes := by
  unfold maybeCancel; split <;> rfl

theorem maybeCancel_options (s : LMState) : (maybeCancel s).options = s.options := by
  unfold maybeCancel; split <;> rfl

theorem maybeCancel_isFull (s : LMState) : isFull (maybeCancel s) = isFull s := by
  unfold maybeCancel isFull; split <;> rfl

theorem add_messages (sub : Subscriber) (s : LMState) (m : Message) :
    (add sub s m).1.messages = addMessages s m := by
  unfold add; split <;> rfl

theorem add_bytes (sub : Subscriber) (s : LMState) (m : Message) :
    (add sub s m).1.bytes = s.bytes + (m.length : Int) := by
  unfold add; split <;> rfl

theorem add_options (sub : Subscriber) (s : LMState) (m : Message) :
    (add sub s m).1.options = s.options := by
  unfold add; split <;> rfl

theorem remove_messages (sub : Subscriber) (s : LMState) (m : Message) :
    (remove sub s m).1.messages
      = if m ∈ s.messages then s.messages.erase m else s.messages := by
  unfold remove
  split
  · split
    · simp [maybeCancel_messages, afterDelete]
    · split
      · simp [maybeCancel_messages, afterDelete]
      · split <;> simp_all [maybeCancel_messages, afterDelete]
  · rfl

theorem remove_bytes (sub : Subscriber) (s : LMState) (m : Message) :
    (remove sub s m).1.bytes
      = if m ∈ s.messages then s.bytes - (m.length : Int) else s.bytes := by
  unfold remove
  split
  · split
    · simp [maybeCancel_bytes, afterDelete]
    · split
      · simp [maybeCancel_bytes, afterDelete]
      · split <;> simp_all [maybeCancel_bytes, afterDelete]
  · rfl

theorem remove_options (sub : Subscriber) (s : LMState) (m : Message) :
    (remove sub s m).1.options = s.options := by
  unfold remove
  split
  · split
    · simp [maybeCancel_options, afterDelete]
    · split
      · simp [maybeCancel_options, afterDelete]
      · split <;> simp_all [maybeCancel_options, afterDelete]
  · rfl

theorem clear_options (s : LMState) : (clear s).1.options = s.options := rfl

/-! ### C7 — sweep re-arm interval -/

/-- C7: the claim asserts the interval lies in
`[0, ackDeadlineMs*0.9 − renewalRpcLatencyMs]` for ALL parameter values.
It fails when the observed renewal latency exceeds 90% of the deadline:
with a 1 s deadline, 10 s latency and jitter 1/2 the computed interval is
negative. -/
theorem C7_counterexample : getNextExtensionTimeoutMs subSlow (1 / 2) < 0 := by
  norm_num [getNextExtensionTimeoutMs, subSlow]

/-- C7 (amended): the interval always equals
`(ackDeadlineMs * 0.9 − renewalRpcLatencyMs) * jitter`, and whenever the
renewal latency is at most 90% of the deadline (and the jitter lies in
`[0,1)`), the interval lies in `[0, ackDeadlineMs*0.9 − renewalRpcLatencyMs]`. -/
theorem C7_interval_formula_and_range (sub : Subscriber) (jitter : ℚ)
    (h0 : 0 ≤ jitter) (h1 : jitter < 1)
    (hl : sub.modAckLatency ≤ sub.ackDeadline * 1000 * (9 / 10)) :
    getNextExtensionTimeoutMs sub jitter
      = (sub.ackDeadline * 1000 * (9 / 10) - sub.modAckLatency) * jitter
    ∧ 0 ≤ getNextExtensionTimeoutMs sub jitter
    ∧ getNextExtensionTimeoutMs sub jitter
      ≤ sub.ackDeadline * 1000 * (9 / 10) - sub.modAckLatency := by
  refine ⟨rfl, ?_, ?_⟩
  · exact mul_nonneg (by linarith) h0
  · exact mul_le_of_le_one_right (by linarith) (le_of_lt h1)

/-- C7 witness: a 10 s deadline, 100 ms latency and jitter 1/3 satisfy the
hypotheses, and the theorem places the interval within the bound. -/
theorem C7_interval_formula_and_range_witness :
    ((0 : ℚ) ≤ 1 / 3 ∧ (1 / 3 : ℚ) < 1
      ∧ subW.modAckLatency ≤ subW.ackDeadline * 1000 * (9 / 10))
    ∧ (0 ≤ getNextExtensionTimeoutMs subW (1 / 3)
      ∧ getNextExtensionTimeoutMs subW (1 / 3)
        ≤ subW.ackDeadline * 1000 * (9 / 10) - subW.modAckLatency) := by
  refine ⟨⟨by norm_num, by norm_num, by norm_num [subW]⟩, ?_⟩
  exact (C7_interval_formula_and_range subW (1 / 3) (by norm_num) (by norm_num)
    (by norm_num [subW])).2

/-! ### C8 — configuration is never validated -/

/-- C8: the claim asserts invalid configurations are rejected at
configuration time, before any message is admitted.  The source's
`setOptions` merely merges the argument over the defaults with no
validation and no throw path: constructing the manager with the
nonsensical cap `maxMessages = -1` succeeds, the invalid value becomes
the live configuration, and a message is admitted afterwards. -/
theorem C8_counterexample :
    (initState { maxMessages := some (-1) }).options.maxMessages = -1
    ∧ (add sub0 (initState { maxMessages := some (-1) }) ⟨0, 5, 0⟩).1.messages
      = [⟨0, 5, 0⟩] := by
  decide

/-- C8 (amended): neither construction nor `setOptions` validates
anything: every argument is accepted — the merged options are installed
unconditionally, the inventory is untouched, and no error is ever
raised (the operation is a total function). -/
theorem C8_no_validation (s : LMState) (o : FlowControlOptionsArg) :
    (setOptions s o).options = mergeOptions o
    ∧ (setOptions s o).messages = s.messages
    ∧ (setOptions s o).pending = s.pending
    ∧ (setOptions s o).bytes = s.bytes
    ∧ ∀ v : Int,
        (initState { maxMessages := some v }).options.maxMessages = v :=
  ⟨rfl, rfl, rfl, rfl, fun _ => rfl⟩

/-! ### C10 — setOptions replaces the configuration wholesale -/

/-- C10: `setOptions` builds a fresh defaults object
(`allowExcessMessages = true`, default `maxBytes`, default `maxMessages`)
and overrides it with exactly the fields present in the argument; fields
absent from the argument revert to their defaults, the previous
configuration has no influence on the result, and the call never
throws (it is a total function). -/
theorem C10_setOptions_wholesale (s t : LMState) (o : FlowControlOptionsArg) :
    (setOptions s o).options.allowExcessMessages = o.allowExcessMessages.getD true
    ∧ (setOptions s o).options.maxBytes = o.maxBytes.getD defaultMaxBytes
    ∧ (setOptions s o).options.maxMessages = o.maxMessages.getD defaultMaxMessages
    ∧ (setOptions s o).options = (setOptions t o).options :=
  ⟨rfl, rfl, rfl, rfl⟩

/-! ### C9 — duplicate add double-counts bytes -/

/-- C9: adding a message already in the held set leaves the set (and its
size) unchanged — `Set.add` deduplicates — but still increases the byte
counter by the message's size, and the message is handled again: it is
dispensed once more (when excess is allowed or the inventory was not
full, and the subscriber is open) or pushed into the pending queue a
second time. -/
theorem C9_duplicate_add (sub : Subscriber) (s : LMState) (m : Message)
    (hm : m ∈ s.messages) :
    (add sub s m).1.messages = s.messages
    ∧ (add sub s m).1.bytes = s.bytes + (m.length : Int)
    ∧ (s.options.allowExcessMessages = true ∨ isFull s = false →
        sub.isOpen = true → (Notice.dispense m, true) ∈ (add sub s m).2)
    ∧ (s.options.allowExcessMessages = false → isFull s = true →
        (add sub s m).1.pending = s.pending ++ [m]) := by
  refine ⟨?_, add_bytes sub s m, ?_, ?_⟩
  · rw [add_messages]; unfold addMessages; rw [if_pos hm]
  · intro hcond hopen
    unfold add
    rw [if_pos hcond]
    simp [dispense, hopen]
  · intro hae hfull
    unfold add
    rw [if_neg (by simp [hae, hfull])]

/-- C9 witness: a one-message state with the default options; re-adding
the held message keeps the set a singleton, double-counts its 5 bytes,
and dispenses it a second time. -/
theorem C9_duplicate_add_witness :
    (⟨0, 5, 0⟩ : Message) ∈ (add sub0 (initState {}) ⟨0, 5, 0⟩).1.messages
    ∧ ((add sub0 (add sub0 (initState {}) ⟨0, 5, 0⟩).1 ⟨0, 5, 0⟩).1.messages
        = (add sub0 (initState {}) ⟨0, 5, 0⟩).1.messages
      ∧ (add sub0 (add sub0 (initState {}) ⟨0, 5, 0⟩).1 ⟨0, 5, 0⟩).1.bytes
        = (add sub0 (initState {}) ⟨0, 5, 0⟩).1.bytes + ((5 : Nat) : Int)) := by
  have h : (⟨0, 5, 0⟩ : Message) ∈ (add sub0 (initState {}) ⟨0, 5, 0⟩).1.messages := by
    decide
  have h2 := C9_duplicate_add sub0 (add sub0 (initState {}) ⟨0, 5, 0⟩).1 ⟨0, 5, 0⟩ h
  exact ⟨h, h2.1, h2.2.1⟩

/-! ### C1 — byte counter and size invariant -/

/-- Sum of the byte sizes of a list of messages. -/
def sumBytes (l : List Message) : Int := (l.map fun m => (m.length : Int)).sum

theorem sumBytes_nonneg (l : List Message) : 0 ≤ sumBytes l := by
  induction l with
  | nil => simp [sumBytes]
  | cons a t ih =>
    simp only [sumBytes, List.map_cons, List.sum_cons]
    simp only [sumBytes] at ih
    have ha : (0 : Int) ≤ (a.length : Int) := Int.natCast_nonneg _
    linarith

theorem sumBytes_append_single (l : List Message) (m : Message) :
    sumBytes (l ++ [m]) = sumBytes l + (m.length : Int) := by
  simp [sumBytes]

theorem sumBytes_erase (l : List Message) (m : Message) (h : m ∈ l) :
    sumBytes (l.erase m) = sumBytes l - (m.length : Int) := by
  induction l with
  | nil => cases h
  | cons a t ih =>
    by_cases ha : a = m
    · subst ha; simp [List.erase_cons, sumBytes]
    · rw [List.erase_cons, if_neg (by simp [ha])]
      rcases List.mem_cons.1 h with h1 | h1
      · exact absurd h1.symm ha
      · simp only [sumBytes, List.map_cons, List.sum_cons] at ih ⊢
        rw [ih h1]; ring

/-- The inventory invariant: the byte counter equals the summed sizes of
the held messages, and the held list is duplicate-free (it models a
`Set`). -/
def LMInv (s : LMState) : Prop := s.bytes = sumBytes s.messages ∧ s.messages.Nodup

theorem add_inv (sub : Subscriber) (s : LMState) (m : Message)
    (hs : LMInv s) (hm : m ∉ s.messages) : LMInv (add sub s m).1 := by
  refine ⟨?_, ?_⟩
  · rw [add_bytes, add_messages]
    unfold addMessages
    rw [if_neg hm, sumBytes_append_single, hs.1]
  · rw [add_messages]
    unfold addMessages
    rw [if_neg hm]
    simp [List.nodup_append, hs.2, hm]

theorem remove_inv (sub : Subscriber) (s : LMState) (m : Message)
    (hs : LMInv s) : LMInv (remove sub s m).1 := by
  by_cases hm : m ∈ s.messages
  · refine ⟨?_, ?_⟩
    · rw [remove_bytes, remove_messages, if_pos hm, if_pos hm,
        sumBytes_erase s.messages m hm, hs.1]
    · rw [remove_messages, if_pos hm]
      exact hs.2.erase m
  · refine ⟨?_, ?_⟩
    · rw [remove_bytes, remove_messages, if_neg hm, if_neg hm, hs.1]
    · rw [remove_messages, if_neg hm]; exact hs.2

theorem clear_inv (s : LMState) : LMInv (clear s).1 := by
  exact ⟨rfl, List.nodup_nil⟩

/-- Decides that every `add` in the sequence supplies a message not
already present at the moment of the call. -/
def distinctAddsB (sub : Subscriber) : LMState → List Op → Bool
  | _, [] => true
  | s, op :: ops =>
    (match op with
      | .addOp m => decide (m ∉ s.messages)
      | _ => true) && distinctAddsB sub (step sub s op).1 ops

theorem runOps_inv (sub : Subscriber) (ops : List Op) :
    ∀ s : LMState, LMInv s → distinctAddsB sub s ops = true →
      LMInv (runOps sub s ops).1 := by
  induction ops with
  | nil => exact fun s hs _ => hs
  | cons op ops ih =>
    intro s hs h
    cases op with
    | addOp m =>
      simp only [distinctAddsB, Bool.and_eq_true] at h
      have hm : m ∉ s.messages := by simpa using h.1
      exact ih (step sub s (.addOp m)).1 (add_inv sub s m hs hm) h.2
    | removeOp m =>
      simp only [distinctAddsB, Bool.and_eq_true, true_and] at h
      exact ih (step sub s (.removeOp m)).1 (remove_inv sub s m hs) h
    | clearOp =>
      simp only [distinctAddsB, Bool.and_eq_true, true_and] at h
      exact ih (step sub s .clearOp).1 (clear_inv s) h

/-- C1: starting from a freshly constructed manager, for every sequence
of `add` / `remove` / `clear` calls in which each `add` is given a
message not already held, the byte counter equals the summed sizes of
the currently held messages (hence is never negative), and the reported
`size` equals the number of held messages (the held list stays
duplicate-free, so its length counts distinct messages).  Since the
statement quantifies over all such sequences, it holds after every
prefix, i.e. after every individual call. -/
theorem C1_bytes_and_size_invariant (o : FlowControlOptionsArg)
    (sub : Subscriber) (ops : List Op)
    (h : distinctAddsB sub (initState o) ops = true) :
    (runOps sub (initState o) ops).1.bytes
      = sumBytes (runOps sub (initState o) ops).1.messages
    ∧ 0 ≤ (runOps sub (initState o) ops).1.bytes
    ∧ size (runOps sub (initState o) ops).1
      = (runOps sub (initState o) ops).1.messages.length
    ∧ (runOps sub (initState o) ops).1.messages.Nodup := by
  have hinv : LMInv (runOps sub (initState o) ops).1 :=
    runOps_inv sub ops (initState o) ⟨rfl, List.nodup_nil⟩ h
  refine ⟨hinv.1, ?_, rfl, hinv.2⟩
  rw [hinv.1]; exact sumBytes_nonneg _

/-- C1 witness: a concrete four-operation run with distinct adds. -/
theorem C1_bytes_and_size_invariant_witness :
    distinctAddsB sub0 (initState {})
      [.addOp ⟨0, 10, 0⟩, .addOp ⟨1, 5, 0⟩, .removeOp ⟨0, 10, 0⟩, .addOp ⟨2, 7, 0⟩] = true
    ∧ ((runOps sub0 (initState {})
        [.addOp ⟨0, 10, 0⟩, .addOp ⟨1, 5, 0⟩, .removeOp ⟨0, 10, 0⟩, .addOp ⟨2, 7, 0⟩]).1.bytes
      = sumBytes (runOps sub0 (initState {})
        [.addOp ⟨0, 10, 0⟩, .addOp ⟨1, 5, 0⟩, .removeOp ⟨0, 10, 0⟩, .addOp ⟨2, 7, 0⟩]).1.messages
      ∧ 0 ≤ (runOps sub0 (initState {})
        [.addOp ⟨0, 10, 0⟩, .addOp ⟨1, 5, 0⟩, .removeOp ⟨0, 10, 0⟩, .addOp ⟨2, 7, 0⟩]).1.bytes
      ∧ size (runOps sub0 (initState {})
        [.addOp ⟨0, 10, 0⟩, .addOp ⟨1, 5, 0⟩, .removeOp ⟨0, 10, 0⟩, .addOp ⟨2, 7, 0⟩]).1
        = (runOps sub0 (initState {})
        [.addOp ⟨0, 10, 0⟩, .addOp ⟨1, 5, 0⟩, .removeOp ⟨0, 10, 0⟩, .addOp ⟨2, 7, 0⟩]).1.messages.length
      ∧ (runOps sub0 (initState {})
        [.addOp ⟨0, 10, 0⟩, .addOp ⟨1, 5, 0⟩, .removeOp ⟨0, 10, 0⟩, .addOp ⟨2, 7, 0⟩]).1.messages.Nodup) :=
  ⟨by decide, C1_bytes_and_size_invariant {} sub0
    [.addOp ⟨0, 10, 0⟩, .addOp ⟨1, 5, 0⟩, .removeOp ⟨0, 10, 0⟩, .addOp ⟨2, 7, 0⟩]
    (by decide)⟩

/-! ### C2 — pending-queue membership -/

theorem maybeCancel_pending (s : LMState) : (maybeCancel s).pending = s.pending := by
  unfold maybeCancel; split <;> rfl

/-- C2: the claim asserts that `pendingQueue ⊆ held` at every reachable
point and that `remove(m)` always expels a pending `m` from the queue.
It fails when a removal of a pending message also flips fullness from
true to false: the `free` branch of `remove` returns before the pending
cleanup.  Concretely (`allowExcessMessages = false`, `maxBytes = 10`):
add A (10 bytes, dispensed, now full), add C (5 bytes, pending),
remove A (flips to not-full, C stays pending and held), add B (5 bytes,
dispensed, full again), remove C (flips to not-full again — `free`
branch, so C stays in the pending queue while no longer held). -/
theorem C2_counterexample :
    (⟨2, 5, 0⟩ : Message) ∈ (runOps sub0
      (initState { allowExcessMessages := some false, maxBytes := some 10 })
      [.addOp ⟨0, 10, 0⟩, .addOp ⟨2, 5, 0⟩, .removeOp ⟨0, 10, 0⟩,
        .addOp ⟨1, 5, 0⟩, .removeOp ⟨2, 5, 0⟩]).1.pending
    ∧ (⟨2, 5, 0⟩ : Message) ∉ (runOps sub0
      (initState { allowExcessMessages := some false, maxBytes := some 10 })
      [.addOp ⟨0, 10, 0⟩, .addOp ⟨2, 5, 0⟩, .removeOp ⟨0, 10, 0⟩,
        .addOp ⟨1, 5, 0⟩, .removeOp ⟨2, 5, 0⟩]).1.messages := by
  decide

/-! ### C4 — synchrony of the capacity notifications -/

theorem mem_dispense (sub : Subscriber) (m : Message) (e : Emitted)
    (h : e ∈ dispense sub m) : e = (Notice.dispense m, true) := by
  unfold dispense at h
  split at h <;> simpa using h

theorem mem_fullEvent (s : LMState) (m : Message) (e : Emitted)
    (h : e ∈ fullEvent s m) : e = (Notice.full, false) := by
  unfold fullEvent at h
  split at h <;> simpa using h

/-- C4: the claim asserts the `full` notification is deferred to the
next tick and never delivered synchronously inside `add`.  The source
(line 118) emits it with a plain synchronous `this.emit('full')` — only
`free` is wrapped in `process.nextTick`.  Concretely, an `add` that
fills a capacity-1 manager emits `full` with the deferred flag `false`. -/
theorem C4_counterexample :
    (Notice.full, false)
      ∈ (add sub0 (initState { maxMessages := some 1 }) ⟨0, 5, 0⟩).2 := by
  decide

/-- C4 (amended): every `full` notification emitted by `add` is emitted
synchronously within the call (deferred flag `false`), while every
`free` notification emitted by `remove` or `clear` is deferred to the
next tick (flag `true`); moreover `add` never emits `free` and
`remove` / `clear` never emit `full`. -/
theorem C4_full_sync_free_deferred :
    (∀ (sub : Subscriber) (s : LMState) (m : Message) (d : Bool),
      (Notice.full, d) ∈ (add sub s m).2 → d = false)
    ∧ (∀ (sub : Subscriber) (s : LMState) (m : Message) (d : Bool),
      (Notice.free, d) ∉ (add sub s m).2)
    ∧ (∀ (sub : Subscriber) (s : LMState) (m : Message) (d : Bool),
      (Notice.free, d) ∈ (remove sub s m).2 → d = true)
    ∧ (∀ (sub : Subscriber) (s : LMState) (m : Message) (d : Bool),
      (Notice.full, d) ∉ (remove sub s m).2)
    ∧ (∀ (s : LMState) (d : Bool),
      (Notice.free, d) ∈ (clear s).2 → d = true)
    ∧ ∀ (s : LMState) (d : Bool), (Notice.full, d) ∉ (clear s).2 := by
  have hadd : ∀ (sub : Subscriber) (s : LMState) (m : Message) (e : Emitted),
      e ∈ (add sub s m).2 → e = (Notice.dispense m, true) ∨ e = (Notice.full, false) := by
    intro sub s m e he
    unfold add at he
    split at he
    · rcases List.mem_append.mp he with h1 | h1
      · exact Or.inl (mem_dispense sub m e h1)
      · exact Or.inr (mem_fullEvent s m e h1)
    · exact Or.inr (mem_fullEvent s m e he)
  have hrem : ∀ (sub : Subscriber) (s : LMState) (m : Message) (e : Emitted),
      e ∈ (remove sub s m).2 →
        e = (Notice.free, true) ∨ ∃ p, e = (Notice.dispense p, true) := by
    intro sub s m e he
    unfold remove at he
    split at he
    · split at he
      · exact Or.inl (by simpa using he)
      · split at he
        · simp at he
        · split at he
          · simp at he
          · exact Or.inr ⟨_, mem_dispense sub _ e he⟩
    · simp at he
  have hclr : ∀ (s : LMState) (e : Emitted),
      e ∈ (clear s).2 → e = (Notice.free, true) := by
    intro s e he
    unfold clear at he
    split at he <;> simpa using he
  refine ⟨?_, ?_, ?_, ?_, ?_, ?_⟩
  · intro sub s m d h
    rcases hadd sub s m _ h with h1 | h1
    · simp at h1
    · simp at h1; exact h1
  · intro sub s m d h
    rcases hadd sub s m _ h with h1 | h1
    · simp at h1
    · simp at h1
  · intro sub s m d h
    rcases hrem sub s m _ h with h1 | ⟨p, h1⟩
    · simp at h1; exact h1
    · simp at h1
  · intro sub s m d h
    rcases hrem sub s m _ h with h1 | ⟨p, h1⟩
    · simp at h1
    · simp at h1
  · intro s d h
    have h1 := hclr s _ h
    simp at h1; exact h1
  · intro s d h
    have h1 := hclr s _ h
    simp at h1

/-- C4 witness: on a capacity-1 manager, a filling `add` emits `full`
with the synchronous flag; instantiating the amended theorem at that
emission confirms the flag is `false`. -/
theorem C4_full_sync_free_deferred_witness :
    (Notice.full, false)
      ∈ (add sub0 (initState { maxMessages := some 1 }) ⟨0, 5, 0⟩).2
    ∧ false = false :=
  ⟨by decide, C4_full_sync_free_deferred.1 sub0
    (initState { maxMessages := some 1 }) ⟨0, 5, 0⟩ false (by decide)⟩

/-! ### C5 — FIFO redistribution of freed capacity -/

/-- C5: the claim asserts the pop-and-dispense of the oldest pending
message happens "only when room exists".  The source (line 175-177) pops
whenever the pending queue is non-empty and the earlier branches did not
fire — it never checks for room.  Concretely (`allowExcessMessages =
false`, `maxMessages = 2`): after adding A, B (dispensed) and C, D
(pending), removing A leaves the inventory still full (3 ≥ 2), yet C is
popped and dispensed. -/
theorem C5_counterexample :
    (Notice.dispense ⟨2, 1, 0⟩, true) ∈ (runOps sub0
      (initState { allowExcessMessages := some false, maxMessages := some 2 })
      [.addOp ⟨0, 1, 0⟩, .addOp ⟨1, 1, 0⟩, .addOp ⟨2, 1, 0⟩, .addOp ⟨3, 1, 0⟩,
        .removeOp ⟨0, 1, 0⟩]).2
    ∧ isFull (runOps sub0
      (initState { allowExcessMessages := some false, maxMessages := some 2 })
      [.addOp ⟨0, 1, 0⟩, .addOp ⟨1, 1, 0⟩, .addOp ⟨2, 1, 0⟩, .addOp ⟨3, 1, 0⟩,
        .removeOp ⟨0, 1, 0⟩]).1 = true := by
  decide

/-- C5 (amended): for every `remove` of a held message that neither
flips fullness from true to false nor finds the removed message in the
pending queue, if the pending queue is non-empty then the oldest pending
message — and only it — is popped and dispensed, unconditionally (room
or not).  In the §8 scenario (`allowExcessMessages = false`, capacity 2,
add A, B, C), removing A causes C to be dispensed while B remains held. -/
theorem C5_fifo_pop_amended :
    (∀ (sub : Subscriber) (s : LMState) (m p : Message) (rest : List Message),
      m ∈ s.messages →
      ¬(isFull s = true ∧ isFull (afterDelete s m) = false) →
      m ∉ s.pending →
      s.pending = p :: rest →
      (remove sub s m).1.pending = rest ∧ (remove sub s m).2 = dispense sub p)
    ∧ ((Notice.dispense ⟨2, 1, 0⟩, true) ∈ (runOps sub0
        (initState { allowExcessMessages := some false, maxMessages := some 2 })
        [.addOp ⟨0, 1, 0⟩, .addOp ⟨1, 1, 0⟩, .addOp ⟨2, 1, 0⟩, .removeOp ⟨0, 1, 0⟩]).2
      ∧ (⟨1, 1, 0⟩ : Message) ∈ (runOps sub0
        (initState { allowExcessMessages := some false, maxMessages := some 2 })
        [.addOp ⟨0, 1, 0⟩, .addOp ⟨1, 1, 0⟩, .addOp ⟨2, 1, 0⟩, .removeOp ⟨0, 1, 0⟩]).1.messages) := by
  constructor
  · intro sub s m p rest hm hflip hmp hpend
    unfold remove
    rw [if_pos hm, if_neg hflip, if_neg hmp, hpend]
    exact ⟨maybeCancel_pending _, rfl⟩
  · exact ⟨by decide, by decide⟩

/-- C5 witness: in the concrete §8 state (A, B held and dispensed, C
pending) the removal of A satisfies the hypotheses, pops C and dispenses
it. -/
theorem C5_fifo_pop_amended_witness :
    ((⟨0, 1, 0⟩ : Message) ∈ (runOps sub0
      (initState { allowExcessMessages := some false, maxMessages := some 2 })
      [.addOp ⟨0, 1, 0⟩, .addOp ⟨1, 1, 0⟩, .addOp ⟨2, 1, 0⟩]).1.messages
    ∧ (runOps sub0
      (initState { allowExcessMessages := some false, maxMessages := some 2 })
      [.addOp ⟨0, 1, 0⟩, .addOp ⟨1, 1, 0⟩, .addOp ⟨2, 1, 0⟩]).1.pending
      = [⟨2, 1, 0⟩])
    ∧ ((remove sub0 (runOps sub0
      (initState { allowExcessMessages := some false, maxMessages := some 2 })
      [.addOp ⟨0, 1, 0⟩, .addOp ⟨1, 1, 0⟩, .addOp ⟨2, 1, 0⟩]).1 ⟨0, 1, 0⟩).1.pending = []
      ∧ (remove sub0 (runOps sub0
      (initState { allowExcessMessages := some false, maxMessages := some 2 })
      [.addOp ⟨0, 1, 0⟩, .addOp ⟨1, 1, 0⟩, .addOp ⟨2, 1, 0⟩]).1 ⟨0, 1, 0⟩).2
        = dispense sub0 ⟨2, 1, 0⟩) := by
  refine ⟨⟨by decide, by decide⟩, ?_⟩
  exact C5_fifo_pop_amended.1 sub0 _ ⟨0, 1, 0⟩ ⟨2, 1, 0⟩ [] (by decide) (by decide)
    (by decide) (by decide)

/-! ### C6 — the sweep evicts over-age messages without renewal -/

theorem remove_no_modAck (sub : Subscriber) (s : LMState) (m x : Message)
    (b : Bool) (h : (Notice.modAck x, b) ∈ (remove sub s m).2) : False := by
  unfold remove at h
  split at h
  · split at h
    · simp at h
    · split at h
      · simp at h
      · split at h
        · simp at h
        · have h2 := mem_dispense sub _ _ h
          simp at h2
  · simp at h

theorem remove_mem_subset (sub : Subscriber) (s : LMState) (m x : Message)
    (h : x ∈ (remove sub s m).1.messages) : x ∈ s.messages := by
  rw [remove_messages] at h
  split at h
  · exact List.mem_of_mem_erase h
  · exact h

theorem remove_self_not_mem (sub : Subscriber) (s : LMState) (m : Message)
    (hnd : s.messages.Nodup) : m ∉ (remove sub s m).1.messages := by
  rw [remove_messages]
  split
  · exact hnd.not_mem_erase
  · assumption

theorem remove_nodup (sub : Subscriber) (s : LMState) (m : Message)
    (hnd : s.messages.Nodup) : (remove sub s m).1.messages.Nodup := by
  rw [remove_messages]
  split
  · exact hnd.erase m
  · exact hnd

theorem sweepFold_mem_subset (sub : Subscriber) (now : Int) (l : List Message) :
    ∀ (acc : LMState × List Emitted) (x : Message),
      x ∈ (l.foldl (sweepStep sub now) acc).1.messages → x ∈ acc.1.messages := by
  induction l with
  | nil => intro acc x h; exact h
  | cons a t ih =>
    intro acc x h
    rw [List.foldl_cons] at h
    have h2 := ih (sweepStep sub now acc a) x h
    unfold sweepStep at h2
    split at h2
    · exact h2
    · exact remove_mem_subset sub acc.1 a x h2

theorem sweepStep_nodup (sub : Subscriber) (now : Int)
    (acc : LMState × List Emitted) (a : Message)
    (hnd : acc.1.messages.Nodup) : (sweepStep sub now acc a).1.messages.Nodup := by
  unfold sweepStep
  split
  · exact hnd
  · exact remove_nodup sub acc.1 a hnd

theorem sweepFold_removes (sub : Subscriber) (now : Int) (l : List Message) :
    ∀ (acc : LMState × List Emitted) (m : Message), acc.1.messages.Nodup →
      m ∈ l → ¬ isYoung sub now m →
      m ∉ (l.foldl (sweepStep sub now) acc).1.messages := by
  induction l with
  | nil => intro acc m _ hml _; cases hml
  | cons a t ih =>
    intro acc m hnd hml hold
    rw [List.foldl_cons]
    by_cases ham : a = m
    · subst ham
      intro hmem
      have h2 := sweepFold_mem_subset sub now t (sweepStep sub now acc a) a hmem
      unfold sweepStep at h2
      rw [if_neg hold] at h2
      exact remove_self_not_mem sub acc.1 a hnd h2
    · have hml' : m ∈ t := by
        rcases List.mem_cons.mp hml with h | h
        · exact absurd h.symm ham
        · exact h
      exact ih (sweepStep sub now acc a) m (sweepStep_nodup sub now acc a hnd)
        hml' hold

theorem sweepFold_modAck (sub : Subscriber) (now : Int) (l : List Message) :
    ∀ (acc : LMState × List Emitted) (x : Message) (b : Bool),
      (Notice.modAck x, b) ∈ (l.foldl (sweepStep sub now) acc).2 →
      (Notice.modAck x, b) ∈ acc.2 ∨ (x ∈ l ∧ isYoung sub now x ∧ b = false) := by
  induction l with
  | nil => intro acc x b h; exact Or.inl h
  | cons a t ih =>
    intro acc x b h
    rw [List.foldl_cons] at h
    rcases ih (sweepStep sub now acc a) x b h with h1 | h1
    · unfold sweepStep at h1
      split at h1
      · rename_i hy
        rcases List.mem_append.mp h1 with h2 | h2
        · exact Or.inl h2
        · have h3 : x = a ∧ b = false := by simpa using h2
          refine Or.inr ⟨by rw [h3.1]; exact List.mem_cons_self a t, ?_, h3.2⟩
          rw [h3.1]; exact hy
      · rcases List.mem_append.mp h1 with h2 | h2
        · exact Or.inl h2
        · exact absurd h2 (fun hc => remove_no_modAck sub acc.1 a x b hc)
    · exact Or.inr ⟨List.mem_cons_of_mem a h1.1, h1.2⟩

/-- C6: on a sweep (`_extendDeadlines`) over a duplicate-free inventory,
every held message whose age in minutes — `(now − receivedAt) / 60000` —
is at least the subscriber's `maxExtensionMinutes` is removed from the
inventory and receives no `modAck` renewal; and every renewal issued by
the sweep goes to a held message that is strictly younger than the cap. -/
theorem C6_sweep_evicts_overage (sub : Subscriber) (now : Int) (s : LMState)
    (m : Message) (hnd : s.messages.Nodup) (hm : m ∈ s.messages)
    (hold : ¬ isYoung sub now m) :
    m ∉ (extendDeadlines sub now s).1.messages
    ∧ (∀ b : Bool, (Notice.modAck m, b) ∉ (extendDeadlines sub now s).2)
    ∧ ∀ (x : Message) (b : Bool),
        (Notice.modAck x, b) ∈ (extendDeadlines sub now s).2 →
          x ∈ s.messages ∧ isYoung sub now x := by
  have hthird : ∀ (x : Message) (b : Bool),
      (Notice.modAck x, b) ∈ (extendDeadlines sub now s).2 →
        x ∈ s.messages ∧ isYoung sub now x := by
    intro x b h
    unfold extendDeadlines at h
    rcases sweepFold_modAck sub now s.messages (s, []) x b h with h1 | h1
    · simp at h1
    · exact ⟨h1.1, h1.2.1⟩
  refine ⟨?_, ?_, hthird⟩
  · unfold extendDeadlines
    exact sweepFold_removes sub now s.messages (s, []) m hnd hm hold
  · intro b h
    exact hold (hthird m b h).2

/-- A one-message inventory fixture: a 5-byte message received at t = 0,
held under the default options. -/
def stW : LMState :=
  { bytes := 5
    isLeasing := true
    messages := [⟨0, 5, 0⟩]
    pending := []
    options := mergeOptions {} }

/-- C6 witness: under a 60-minute extension cap, a sweep at
t = 3\,600\,000 ms (exactly 60 minutes after receipt) evicts the message. -/
theorem C6_sweep_evicts_overage_witness :
    (stW.messages.Nodup ∧ (⟨0, 5, 0⟩ : Message) ∈ stW.messages
      ∧ ¬ isYoung subW 3600000 ⟨0, 5, 0⟩)
    ∧ (⟨0, 5, 0⟩ : Message) ∉ (extendDeadlines subW 3600000 stW).1.messages := by
  have hy : ¬ isYoung subW 3600000 ⟨0, 5, 0⟩ := by
    norm_num [isYoung, subW]
  exact ⟨⟨by decide, by decide, hy⟩,
    (C6_sweep_evicts_overage subW 3600000 stW ⟨0, 5, 0⟩ (by decide) (by decide) hy).1⟩

/-! ### C3 — capacity notifications strictly alternate -/

/-- `altFrom f evs = true` states that the capacity notifications in
`evs` (ignoring dispenses and renewals) are exactly the transitions of a
fullness Boolean that starts at `f`: a `full` only when not yet full, a
`free` only when full.  `altFrom false evs` therefore says the `full` /
`free` notifications strictly alternate and begin with `full`. -/
def altFrom (f : Bool) : List Emitted → Bool
  | [] => true
  | (Notice.full, _) :: t => !f && altFrom true t
  | (Notice.free, _) :: t => f && altFrom false t
  | (Notice.dispense _, _) :: t => altFrom f t
  | (Notice.modAck _, _) :: t => altFrom f t

/-- The value of the tracked fullness Boolean after consuming the
capacity notifications of `evs`, starting from `f`. -/
def capAfter (f : Bool) : List Emitted → Bool
  | [] => f
  | (Notice.full, _) :: t => capAfter true t
  | (Notice.free, _) :: t => capAfter false t
  | (Notice.dispense _, _) :: t => capAfter f t
  | (Notice.modAck _, _) :: t => capAfter f t

theorem altFrom_append (f : Bool) (l1 l2 : List Emitted) :
    altFrom f (l1 ++ l2) = (altFrom f l1 && altFrom (capAfter f l1) l2) := by
  induction l1 generalizing f with
  | nil => simp [altFrom, capAfter]
  | cons e t ih =>
    obtain ⟨n, b⟩ := e
    cases n <;> simp [altFrom, capAfter, ih, Bool.and_assoc]

theorem capAfter_append (f : Bool) (l1 l2 : List Emitted) :
    capAfter f (l1 ++ l2) = capAfter (capAfter f l1) l2 := by
  induction l1 generalizing f with
  | nil => simp [capAfter]
  | cons e t ih =>
    obtain ⟨n, b⟩ := e
    cases n <;> simp [capAfter, ih]

theorem altFrom_dispense (f : Bool) (sub : Subscriber) (p : Message) :
    altFrom f (dispense sub p) = true ∧ capAfter f (dispense sub p) = f := by
  unfold dispense
  split <;> simp [altFrom, capAfter]

theorem isFull_iff (s : LMState) :
    isFull s = true ↔
      ((s.messages.length : Int) ≥ s.options.maxMessages
        ∨ s.bytes ≥ s.options.maxBytes) := by
  unfold isFull
  simp [Bool.or_eq_true, decide_eq_true_iff]

theorem isFull_false_iff (s : LMState) :
    isFull s = false ↔
      ((s.messages.length : Int) < s.options.maxMessages
        ∧ s.bytes < s.options.maxBytes) := by
  unfold isFull
  simp [Bool.or_eq_false_iff, decide_eq_false_iff_not, not_le]

theorem isFull_true_mono (s t : LMState) (hopt : s.options = t.options)
    (hlen : s.messages.length ≤ t.messages.length) (hb : s.bytes ≤ t.bytes)
    (h : isFull s = true) : isFull t = true := by
  rw [isFull_iff] at h ⊢
  rw [← hopt]
  rcases h with h | h
  · left; omega
  · right; omega

theorem isFull_set_pending (s : LMState) (p : List Message) :
    isFull { s with pending := p } = isFull s := rfl

theorem addMessages_length (s : LMState) (m : Message) :
    s.messages.length ≤ (addMessages s m).length := by
  unfold addMessages
  split
  · exact le_refl _
  · simp

theorem add_isFull (sub : Subscriber) (s : LMState) (m : Message) :
    isFull (add sub s m).1 = isFull (afterInsert s m) := by
  unfold add
  split
  · rfl
  · rfl

theorem afterInsert_full_mono (s : LMState) (m : Message)
    (h : isFull s = true) : isFull (afterInsert s m) = true := by
  refine isFull_true_mono s (afterInsert s m) rfl (addMessages_length s m) ?_ h
  have := Int.natCast_nonneg m.length
  unfold afterInsert
  simp

theorem afterDelete_full_mono (s : LMState) (m : Message)
    (h : isFull (afterDelete s m) = true) : isFull s = true := by
  refine isFull_true_mono (afterDelete s m) s rfl ?_ ?_ h
  · exact (List.erase_sublist m s.messages).length_le
  · have := Int.natCast_nonneg m.length
    unfold afterDelete
    simp

theorem fullEvent_altFrom (s : LMState) (m : Message) :
    altFrom (isFull s) (fullEvent s m) = true
    ∧ capAfter (isFull s) (fullEvent s m) = isFull (afterInsert s m) := by
  unfold fullEvent
  split
  · rename_i hcond
    rw [hcond.1, hcond.2]
    exact ⟨rfl, rfl⟩
  · rename_i hcond
    refine ⟨rfl, ?_⟩
    show isFull s = isFull (afterInsert s m)
    cases hf : isFull s
    · cases hg : isFull (afterInsert s m)
      · rfl
      · exact absurd ⟨hf, hg⟩ hcond
    · exact (afterInsert_full_mono s m hf).symm

theorem add_altFrom (sub : Subscriber) (s : LMState) (m : Message) :
    altFrom (isFull s) (add sub s m).2 = true
    ∧ capAfter (isFull s) (add sub s m).2 = isFull (add sub s m).1 := by
  rw [add_isFull]
  have hfe := fullEvent_altFrom s m
  unfold add
  split
  · constructor
    · rw [show (afterInsert s m, dispense sub m ++ fullEvent s m).2
          = dispense sub m ++ fullEvent s m from rfl]
      rw [altFrom_append, (altFrom_dispense (isFull s) sub m).1,
        (altFrom_dispense (isFull s) sub m).2, hfe.1]
      rfl
    · rw [show (afterInsert s m, dispense sub m ++ fullEvent s m).2
          = dispense sub m ++ fullEvent s m from rfl]
      rw [capAfter_append, (altFrom_dispense (isFull s) sub m).2, hfe.2]
  · exact hfe

theorem afterDelete_isFull_eq (s : LMState) (m : Message)
    (hflip : ¬(isFull s = true ∧ isFull (afterDelete s m) = false)) :
    isFull (afterDelete s m) = isFull s := by
  cases hf : isFull s
  · cases hg : isFull (afterDelete s m)
    · rfl
    · rw [afterDelete_full_mono s m hg] at hf
      exact absurd hf (by simp)
  · cases hg : isFull (afterDelete s m)
    · exact absurd ⟨hf, hg⟩ hflip
    · rfl

theorem remove_altFrom (sub : Subscriber) (s : LMState) (m : Message) :
    altFrom (isFull s) (remove sub s m).2 = true
    ∧ capAfter (isFull s) (remove sub s m).2 = isFull (remove sub s m).1 := by
  unfold remove
  split
  · split
    · rename_i hflip
      constructor
      · show altFrom (isFull s) [(Notice.free, true)] = true
        simp [altFrom, hflip.1]
      · show capAfter (isFull s) [(Notice.free, true)]
          = isFull (maybeCancel (afterDelete s m))
        rw [maybeCancel_isFull, hflip.2]
        rfl
    · rename_i hflip
      have hEq := afterDelete_isFull_eq s m hflip
      split
      · refine ⟨rfl, ?_⟩
        show isFull s
          = isFull (maybeCancel { afterDelete s m with pending := s.pending.erase m })
        rw [maybeCancel_isFull]
        exact hEq.symm
      · split
        · refine ⟨rfl, ?_⟩
          show isFull s = isFull (maybeCancel (afterDelete s m))
          rw [maybeCancel_isFull, hEq]
        · rename_i p rest hp
          constructor
          · show altFrom (isFull s) (dispense sub p) = true
            exact (altFrom_dispense (isFull s) sub p).1
          · show capAfter (isFull s) (dispense sub p)
              = isFull (maybeCancel { afterDelete s m with pending := rest })
            rw [(altFrom_dispense (isFull s) sub p).2, maybeCancel_isFull]
            exact hEq.symm
  · exact ⟨rfl, rfl⟩

theorem clear_altFrom (s : LMState) (h1 : 0 < s.options.maxMessages)
    (h2 : 0 < s.options.maxBytes) :
    altFrom (isFull s) (clear s).2 = true
    ∧ capAfter (isFull s) (clear s).2 = isFull (clear s).1 := by
  have hempty : isFull (clear s).1 = false := by
    rw [isFull_false_iff]
    constructor
    · simpa using h1
    · simpa using h2
  rw [hempty]
  unfold clear
  split
  · rename_i hf
    constructor
    · show altFrom (isFull s) [(Notice.free, true)] = true
      simp [altFrom, hf]
    · rfl
  · rename_i hf
    have hf' : isFull s = false := by
      cases hfs : isFull s
      · rfl
      · exact absurd hfs hf
    exact ⟨rfl, hf'⟩

theorem step_options (sub : Subscriber) (s : LMState) (op : Op) :
    (step sub s op).1.options = s.options := by
  cases op with
  | addOp m => exact add_options sub s m
  | removeOp m => exact remove_options sub s m
  | clearOp => exact clear_options s

theorem step_altFrom (sub : Subscriber) (s : LMState) (op : Op)
    (h1 : 0 < s.options.maxMessages) (h2 : 0 < s.options.maxBytes) :
    altFrom (isFull s) (step sub s op).2 = true
    ∧ capAfter (isFull s) (step sub s op).2 = isFull (step sub s op).1 := by
  cases op with
  | addOp m => exact add_altFrom sub s m
  | removeOp m => exact remove_altFrom sub s m
  | clearOp => exact clear_altFrom s h1 h2

theorem runOps_altFrom (sub : Subscriber) (ops : List Op) :
    ∀ s : LMState, 0 < s.options.maxMessages → 0 < s.options.maxBytes →
      altFrom (isFull s) (runOps sub s ops).2 = true
      ∧ capAfter (isFull s) (runOps sub s ops).2 = isFull (runOps sub s ops).1 := by
  induction ops with
  | nil => intro s h1 h2; exact ⟨rfl, rfl⟩
  | cons op ops ih =>
    intro s h1 h2
    have hstep := step_altFrom sub s op h1 h2
    have h1' : 0 < (step sub s op).1.options.maxMessages := by
      rw [step_options]; exact h1
    have h2' : 0 < (step sub s op).1.options.maxBytes := by
      rw [step_options]; exact h2
    have ihs := ih (step sub s op).1 h1' h2'
    constructor
    · show altFrom (isFull s)
        ((step sub s op).2 ++ (runOps sub (step sub s op).1 ops).2) = true
      rw [altFrom_append, hstep.1, hstep.2, ihs.1]
      rfl
    · show capAfter (isFull s)
        ((step sub s op).2 ++ (runOps sub (step sub s op).1 ops).2)
        = isFull (runOps sub (step sub s op).1 ops).1
      rw [capAfter_append, hstep.2, ihs.2]

/-- C3: the claim asserts strict alternation of `full` / `free` for
every operation sequence.  It fails for a manager configured with a
zero cap: with `maxMessages = 0` the empty inventory is already "full",
so `clear` emits `free` while the inventory stays full, and two `clear`
calls in a row deliver two `free` notifications with no intervening
`full` (and with no fullness transition at all). -/
theorem C3_counterexample :
    altFrom false (runOps sub0 (initState { maxMessages := some 0 })
      [.clearOp, .clearOp]).2 = false := by
  decide

/-- C3 (amended): provided the configured caps are positive (so that the
empty inventory is not full), the `full` / `free` notifications of any
`add` / `remove` / `clear` sequence are exactly the transitions of the
fullness Boolean starting from not-full: they strictly alternate,
beginning with `full`, with at most one notification per transition. -/
theorem C3_capacity_alternation_amended (o : FlowControlOptionsArg)
    (sub : Subscriber) (ops : List Op)
    (h1 : 0 < (mergeOptions o).maxMessages)
    (h2 : 0 < (mergeOptions o).maxBytes) :
    altFrom false (runOps sub (initState o) ops).2 = true := by
  have h0 : isFull (initState o) = false := by
    rw [isFull_false_iff]
    constructor
    · simpa [initState] using h1
    · simpa [initState] using h2
  have h := (runOps_altFrom sub ops (initState o) h1 h2).1
  rwa [h0] at h

/-- C3 witness: a fill-then-drain run under the default options emits an
alternating `full`, `free` log. -/
theorem C3_capacity_alternation_amended_witness :
    (0 < (mergeOptions {}).maxMessages ∧ 0 < (mergeOptions {}).maxBytes)
    ∧ altFrom false (runOps sub0 (initState {})
        [.addOp ⟨0, 1, 0⟩, .removeOp ⟨0, 1, 0⟩, .clearOp]).2 = true :=
  ⟨⟨by decide, by decide⟩,
    C3_capacity_alternation_amended {} sub0
      [.addOp ⟨0, 1, 0⟩, .removeOp ⟨0, 1, 0⟩, .clearOp] (by decide) (by decide)⟩

/-! ### C2 — pending-queue membership and dispense status -/

theorem mem_clear_events (s : LMState) (e : Emitted)
    (he : e ∈ (clear s).2) : e = (Notice.free, true) := by
  unfold clear at he
  split at he <;> simpa using he

theorem mem_addMessages_of_mem (s : LMState) (m x : Message)
    (hx : x ∈ s.messages) : x ∈ addMessages s m := by
  unfold addMessages
  split
  · exact hx
  · exact List.mem_append_left _ hx

/-- The reachable-state invariant behind C2: every pending message is
held, has never been dispensed in the event log, both lists are
duplicate-free, and everything held, pending or dispensed so far was at
some point an argument of `add` (the `added` list). -/
structure PendInv (s : LMState) (evs : List Emitted) (added : List Message) : Prop where
  pend_held : ∀ x ∈ s.pending, x ∈ s.messages
  pend_undispensed : ∀ x ∈ s.pending, ∀ b : Bool, (Notice.dispense x, b) ∉ evs
  pend_nodup : s.pending.Nodup
  msgs_nodup : s.messages.Nodup
  pend_added : ∀ x ∈ s.pending, x ∈ added
  msgs_added : ∀ x ∈ s.messages, x ∈ added
  evs_added : ∀ (x : Message) (b : Bool), (Notice.dispense x, b) ∈ evs → x ∈ added

theorem add_pending (sub : Subscriber) (s : LMState) (m : Message) :
    (add sub s m).1.pending
      = if s.options.allowExcessMessages = true ∨ isFull s = false
        then s.pending else s.pending ++ [m] := by
  unfold add
  split
  · rfl
  · rfl

theorem add_pendInv (sub : Subscriber) (s : LMState) (m : Message)
    (evs : List Emitted) (added : List Message)
    (hinv : PendInv s evs added) (hm : m ∉ added) :
    PendInv (add sub s m).1 (evs ++ (add sub s m).2) (added ++ [m]) := by
  have hmsg : m ∉ s.messages := fun h => hm (hinv.msgs_added m h)
  have hmp : m ∉ s.pending := fun h => hm (hinv.pend_added m h)
  have hmsgs_eq : (add sub s m).1.messages = s.messages ++ [m] := by
    rw [add_messages]; unfold addMessages; rw [if_neg hmsg]
  have hnewdisp : ∀ (x : Message) (b : Bool),
      (Notice.dispense x, b) ∈ (add sub s m).2 → x = m := by
    intro x b hb
    unfold add at hb
    split at hb
    · rcases List.mem_append.mp hb with h1 | h1
      · have := mem_dispense sub m _ h1
        simp at this
        exact this.1
      · have := mem_fullEvent s m _ h1
        simp at this
    · have := mem_fullEvent s m _ hb
      simp at this
  by_cases hc : s.options.allowExcessMessages = true ∨ isFull s = false
  · have hpend : (add sub s m).1.pending = s.pending := by
      rw [add_pending, if_pos hc]
    refine ⟨?_, ?_, ?_, ?_, ?_, ?_, ?_⟩
    · intro x hx
      rw [hpend] at hx
      rw [hmsgs_eq]
      exact List.mem_append_left _ (hinv.pend_held x hx)
    · intro x hx b hb
      rw [hpend] at hx
      rcases List.mem_append.mp hb with h1 | h1
      · exact hinv.pend_undispensed x hx b h1
      · have hxm := hnewdisp x b h1
        exact hm (hxm ▸ hinv.pend_added x hx)
    · rw [hpend]; exact hinv.pend_nodup
    · rw [hmsgs_eq]
      simp [List.nodup_append, hinv.msgs_nodup, hmsg]
    · intro x hx
      rw [hpend] at hx
      exact List.mem_append_left _ (hinv.pend_added x hx)
    · intro x hx
      rw [hmsgs_eq] at hx
      rcases List.mem_append.mp hx with h1 | h1
      · exact List.mem_append_left _ (hinv.msgs_added x h1)
      · exact List.mem_append_right _ h1
    · intro x b hb
      rcases List.mem_append.mp hb with h1 | h1
      · exact List.mem_append_left _ (hinv.evs_added x b h1)
      · exact List.mem_append_right _ (by simpa using hnewdisp x b h1)
  · have hpend : (add sub s m).1.pending = s.pending ++ [m] := by
      rw [add_pending, if_neg hc]
    have hevs : (add sub s m).2 = fullEvent s m := by
      unfold add; rw [if_neg hc]
    refine ⟨?_, ?_, ?_, ?_, ?_, ?_, ?_⟩
    · intro x hx
      rw [hpend] at hx
      rw [hmsgs_eq]
      rcases List.mem_append.mp hx with h1 | h1
      · exact List.mem_append_left _ (hinv.pend_held x h1)
      · exact List.mem_append_right _ h1
    · intro x hx b hb
      rw [hpend] at hx
      rcases List.mem_append.mp hb with h1 | h1
      · rcases List.mem_append.mp hx with h2 | h2
        · exact hinv.pend_undispensed x h2 b h1
        · have hxm : x = m := by simpa using h2
          exact hm (hxm ▸ hinv.evs_added x b h1)
      · rw [hevs] at h1
        have := mem_fullEvent s m _ h1
        simp at this
    · rw [hpend]
      simp [List.nodup_append, hinv.pend_nodup, hmp]
    · rw [hmsgs_eq]
      simp [List.nodup_append, hinv.msgs_nodup, hmsg]
    · intro x hx
      rw [hpend] at hx
      rcases List.mem_append.mp hx with h1 | h1
      · exact List.mem_append_left _ (hinv.pend_added x h1)
      · exact List.mem_append_right _ h1
    · intro x hx
      rw [hmsgs_eq] at hx
      rcases List.mem_append.mp hx with h1 | h1
      · exact List.mem_append_left _ (hinv.msgs_added x h1)
      · exact List.mem_append_right _ h1
    · intro x b hb
      rcases List.mem_append.mp hb with h1 | h1
      · exact List.mem_append_left _ (hinv.evs_added x b h1)
      · rw [hevs] at h1
        have := mem_fullEvent s m _ h1
        simp at this

theorem remove_pendInv (sub : Subscriber) (s : LMState) (m : Message)
    (evs : List Emitted) (added : List Message)
    (hinv : PendInv s evs added)
    (hnb : ¬(m ∈ s.pending ∧ isFull s = true
      ∧ isFull (afterDelete s m) = false)) :
    PendInv (remove sub s m).1 (evs ++ (remove sub s m).2) added := by
  by_cases hm : m ∈ s.messages
  · unfold remove
    rw [if_pos hm]
    by_cases hflip : isFull s = true ∧ isFull (afterDelete s m) = false
    · rw [if_pos hflip]
      have hmp : m ∉ s.pending := fun h => hnb ⟨h, hflip⟩
      refine ⟨?_, ?_, ?_, ?_, ?_, ?_, ?_⟩
      · intro x hx
        rw [maybeCancel_pending] at hx
        rw [maybeCancel_messages]
        exact (hinv.msgs_nodup.mem_erase_iff).mpr
          ⟨fun hxe => hmp (hxe ▸ hx), hinv.pend_held x hx⟩
      · intro x hx b hb
        rw [maybeCancel_pending] at hx
        rcases List.mem_append.mp hb with h1 | h1
        · exact hinv.pend_undispensed x hx b h1
        · simp at h1
      · rw [maybeCancel_pending]; exact hinv.pend_nodup
      · rw [maybeCancel_messages]; exact hinv.msgs_nodup.erase m
      · intro x hx
        rw [maybeCancel_pending] at hx
        exact hinv.pend_added x hx
      · intro x hx
        rw [maybeCancel_messages] at hx
        exact hinv.msgs_added x (List.mem_of_mem_erase hx)
      · intro x b hb
        rcases List.mem_append.mp hb with h1 | h1
        · exact hinv.evs_added x b h1
        · simp at h1
    · rw [if_neg hflip]
      by_cases hmp : m ∈ s.pending
      · rw [if_pos hmp]
        refine ⟨?_, ?_, ?_, ?_, ?_, ?_, ?_⟩
        · intro x hx
          rw [maybeCancel_pending] at hx
          rw [maybeCancel_messages]
          have h2 := (hinv.pend_nodup.mem_erase_iff).mp hx
          exact (hinv.msgs_nodup.mem_erase_iff).mpr
            ⟨h2.1, hinv.pend_held x h2.2⟩
        · intro x hx b hb
          rw [maybeCancel_pending] at hx
          have h2 := (hinv.pend_nodup.mem_erase_iff).mp hx
          rcases List.mem_append.mp hb with h1 | h1
          · exact hinv.pend_undispensed x h2.2 b h1
          · simp at h1
        · rw [maybeCancel_pending]; exact hinv.pend_nodup.erase m
        · rw [maybeCancel_messages]; exact hinv.msgs_nodup.erase m
        · intro x hx
          rw [maybeCancel_pending] at hx
          exact hinv.pend_added x (List.mem_of_mem_erase hx)
        · intro x hx
          rw [maybeCancel_messages] at hx
          exact hinv.msgs_added x (List.mem_of_mem_erase hx)
        · intro x b hb
          rcases List.mem_append.mp hb with h1 | h1
          · exact hinv.evs_added x b h1
          · simp at h1
      · rw [if_neg hmp]
        cases hp : s.pending with
        | nil =>
          refine ⟨?_, ?_, ?_, ?_, ?_, ?_, ?_⟩
          · intro x hx
            rw [maybeCancel_pending] at hx
            simp [afterDelete, hp] at hx
          · intro x hx b hb
            rw [maybeCancel_pending] at hx
            simp [afterDelete, hp] at hx
          · rw [maybeCancel_pending]
            simp [afterDelete, hp]
          · rw [maybeCancel_messages]; exact hinv.msgs_nodup.erase m
          · intro x hx
            rw [maybeCancel_pending] at hx
            simp [afterDelete, hp] at hx
          · intro x hx
            rw [maybeCancel_messages] at hx
            exact hinv.msgs_added x (List.mem_of_mem_erase hx)
          · intro x b hb
            rcases List.mem_append.mp hb with h1 | h1
            · exact hinv.evs_added x b h1
            · simp at h1
        | cons p rest =>
          have hpmem : p ∈ s.pending := by rw [hp]; exact List.mem_cons_self p rest
          have hrest : ∀ x ∈ rest, x ∈ s.pending := by
            intro x hx; rw [hp]; exact List.mem_cons_of_mem p hx
          have hpnotrest : p ∉ rest := by
            have := hinv.pend_nodup
            rw [hp] at this
            exact (List.nodup_cons.mp this).1
          refine ⟨?_, ?_, ?_, ?_, ?_, ?_, ?_⟩
          · intro x hx
            rw [maybeCancel_pending] at hx
            rw [maybeCancel_messages]
            exact (hinv.msgs_nodup.mem_erase_iff).mpr
              ⟨fun hxe => hmp (hxe ▸ hrest x hx), hinv.pend_held x (hrest x hx)⟩
          · intro x hx b hb
            rw [maybeCancel_pending] at hx
            rcases List.mem_append.mp hb with h1 | h1
            · exact hinv.pend_undispensed x (hrest x hx) b h1
            · have h2 := mem_dispense sub p _ h1
              simp at h2
              exact hpnotrest (h2.1 ▸ hx)
          · rw [maybeCancel_pending]
            have := hinv.pend_nodup
            rw [hp] at this
            exact (List.nodup_cons.mp this).2
          · rw [maybeCancel_messages]; exact hinv.msgs_nodup.erase m
          · intro x hx
            rw [maybeCancel_pending] at hx
            exact hinv.pend_added x (hrest x hx)
          · intro x hx
            rw [maybeCancel_messages] at hx
            exact hinv.msgs_added x (List.mem_of_mem_erase hx)
          · intro x b hb
            rcases List.mem_append.mp hb with h1 | h1
            · exact hinv.evs_added x b h1
            · have h2 := mem_dispense sub p _ h1
              simp at h2
              exact h2.1 ▸ hinv.pend_added p hpmem
  · unfold remove
    rw [if_neg hm]
    refine ⟨?_, ?_, ?_, ?_, ?_, ?_, ?_⟩
    · exact hinv.pend_held
    · intro x hx b hb
      exact hinv.pend_undispensed x hx b (by simpa using hb)
    · exact hinv.pend_nodup
    · exact hinv.msgs_nodup
    · exact hinv.pend_added
    · exact hinv.msgs_added
    · intro x b hb
      exact hinv.evs_added x b (by simpa using hb)

theorem clear_pendInv (s : LMState) (evs : List Emitted)
    (added : List Message) (hinv : PendInv s evs added) :
    PendInv (clear s).1 (evs ++ (clear s).2) added := by
  refine ⟨?_, ?_, ?_, ?_, ?_, ?_, ?_⟩
  · intro x hx; simp [clear] at hx
  · intro x hx; simp [clear] at hx
  · simp [clear]
  · simp [clear]
  · intro x hx; simp [clear] at hx
  · intro x hx; simp [clear] at hx
  · intro x b hb
    rcases List.mem_append.mp hb with h1 | h1
    · exact hinv.evs_added x b h1
    · have := mem_clear_events s _ h1
      simp at this

/-- The messages supplied to the `add` calls of an operation sequence,
in order. -/
def addedOf : List Op → List Message
  | [] => []
  | Op.addOp m :: ops => m :: addedOf ops
  | Op.removeOp _ :: ops => addedOf ops
  | Op.clearOp :: ops => addedOf ops

/-- Decides the discipline under which the C2 invariant holds: every
`add` supplies a globally fresh message (never added before — the
spec's lifecycle makes removal terminal), and no `remove` targets a
currently-pending message while flipping fullness from true to false
(the exact operation the counterexample shows breaking the invariant). -/
def disciplined (sub : Subscriber) : LMState → List Message → List Op → Bool
  | _, _, [] => true
  | s, added, Op.addOp m :: ops =>
    decide (m ∉ added) && disciplined sub (add sub s m).1 (added ++ [m]) ops
  | s, added, Op.removeOp m :: ops =>
    decide (¬(m ∈ s.pending ∧ isFull s = true ∧ isFull (afterDelete s m) = false))
      && disciplined sub (remove sub s m).1 added ops
  | s, added, Op.clearOp :: ops =>
    disciplined sub (clear s).1 added ops

theorem runOps_pendInv (sub : Subscriber) (ops : List Op) :
    ∀ (s : LMState) (evs : List Emitted) (added : List Message),
      PendInv s evs added → disciplined sub s added ops = true →
      PendInv (runOps sub s ops).1 (evs ++ (runOps sub s ops).2)
        (added ++ addedOf ops) := by
  induction ops with
  | nil =>
    intro s evs added hinv _
    show PendInv s (evs ++ []) (added ++ [])
    simpa using hinv
  | cons op ops ih =>
    intro s evs added hinv h
    cases op with
    | addOp m =>
      simp only [disciplined, Bool.and_eq_true, decide_eq_true_eq] at h
      have h1 := add_pendInv sub s m evs added hinv h.1
      show PendInv (runOps sub (add sub s m).1 ops).1
        (evs ++ ((add sub s m).2 ++ (runOps sub (add sub s m).1 ops).2))
        (added ++ (m :: addedOf ops))
      rw [← List.append_assoc,
        show added ++ m :: addedOf ops = (added ++ [m]) ++ addedOf ops by simp]
      exact ih (add sub s m).1 (evs ++ (add sub s m).2) (added ++ [m]) h1 h.2
    | removeOp m =>
      simp only [disciplined, Bool.and_eq_true, decide_eq_true_eq] at h
      have h1 := remove_pendInv sub s m evs added hinv h.1
      show PendInv (runOps sub (remove sub s m).1 ops).1
        (evs ++ ((remove sub s m).2 ++ (runOps sub (remove sub s m).1 ops).2))
        (added ++ addedOf ops)
      rw [← List.append_assoc]
      exact ih (remove sub s m).1 (evs ++ (remove sub s m).2) added h1 h.2
    | clearOp =>
      simp only [disciplined] at h
      have h1 := clear_pendInv s evs added hinv
      show PendInv (runOps sub (clear s).1 ops).1
        (evs ++ ((clear s).2 ++ (runOps sub (clear s).1 ops).2))
        (added ++ addedOf ops)
      rw [← List.append_assoc]
      exact ih (clear s).1 (evs ++ (clear s).2) added h1 h

/-- C2 (amended): at every state reached from a fresh manager by a
sequence of `add` / `remove` / `clear` calls in which each added message
is globally fresh (never added before — the spec's lifecycle makes
removal terminal) and no `remove` targets a currently-pending message
while flipping fullness from true to false, every message in the pending
queue is also a member of the held set and has never been dispensed; and
at every such state, `remove(m)` for a pending message `m` that does not
flip fullness from true to false leaves `m` out of the pending queue.
The excluded removes are exactly the counterexample's: there the `free`
branch returns before the pending cleanup, stranding the removed message
in the queue. -/
theorem C2_pending_membership_amended (o : FlowControlOptionsArg)
    (sub : Subscriber) (ops : List Op)
    (h : disciplined sub (initState o) [] ops = true) :
    (∀ x ∈ (runOps sub (initState o) ops).1.pending,
      x ∈ (runOps sub (initState o) ops).1.messages
      ∧ ∀ b : Bool, (Notice.dispense x, b) ∉ (runOps sub (initState o) ops).2)
    ∧ ∀ m : Message, m ∈ (runOps sub (initState o) ops).1.pending →
        ¬(isFull (runOps sub (initState o) ops).1 = true
          ∧ isFull (afterDelete (runOps sub (initState o) ops).1 m) = false) →
        m ∉ (remove sub (runOps sub (initState o) ops).1 m).1.pending := by
  have hinit : PendInv (initState o) [] [] := by
    refine ⟨?_, ?_, ?_, ?_, ?_, ?_, ?_⟩ <;> simp [initState]
  have hrun := runOps_pendInv sub ops (initState o) [] [] hinit h
  constructor
  · intro x hx
    exact ⟨hrun.pend_held x hx, fun b hb => hrun.pend_undispensed x hx b hb⟩
  · intro m hm hflip
    have hmm : m ∈ (runOps sub (initState o) ops).1.messages :=
      hrun.pend_held m hm
    unfold remove
    rw [if_pos hmm, if_neg hflip, if_pos hm, maybeCancel_pending]
    exact hrun.pend_nodup.not_mem_erase

/-- The options of the C2 witness run: a one-message capacity with
excess messages disallowed, so the second add goes pending. -/
def optW2 : FlowControlOptionsArg :=
  { allowExcessMessages := some false, maxMessages := some 1 }

/-- The operations of the C2 witness run: two fresh adds; the first
message is dispensed and fills the manager, the second goes pending. -/
def opsW2 : List Op := [.addOp ⟨0, 1, 0⟩, .addOp ⟨2, 5, 0⟩]

/-- C2 witness: the witness run satisfies the discipline; the amended
theorem then gives that the pending message is held and undispensed, and
that removing it (a non-flipping removal: the inventory stays full)
expels it from the pending queue. -/
theorem C2_pending_membership_amended_witness :
    disciplined sub0 (initState optW2) [] opsW2 = true
    ∧ (⟨2, 5, 0⟩ : Message) ∈ (runOps sub0 (initState optW2) opsW2).1.pending
    ∧ ((⟨2, 5, 0⟩ : Message) ∈ (runOps sub0 (initState optW2) opsW2).1.messages
      ∧ ∀ b : Bool, (Notice.dispense ⟨2, 5, 0⟩, b)
        ∉ (runOps sub0 (initState optW2) opsW2).2)
    ∧ (⟨2, 5, 0⟩ : Message)
      ∉ (remove sub0 (runOps sub0 (initState optW2) opsW2).1 ⟨2, 5, 0⟩).1.pending := by
  refine ⟨by decide, by decide, ?_, ?_⟩
  · exact (C2_pending_membership_amended optW2 sub0 opsW2 (by decide)).1
      ⟨2, 5, 0⟩ (by decide)
  · exact (C2_pending_membership_amended optW2 sub0 opsW2 (by decide)).2
      ⟨2, 5, 0⟩ (by decide) (by decide)
